import Mathlib

/-!
Verification of the position-tracking stream wrapper (package `lines`,
file `lines.go`).

The wrapper decorates a byte source, records the offset immediately after
every newline byte it streams through, and translates byte offsets into
1-based (line, column) pairs by binary search over the recorded offsets.

The shallow embedding below models:
  * bytes as natural numbers (only comparison with the marker byte 10 matters);
  * the wrapped `io.Reader` as an opaque handle plus, per `Read` call, the
    chunk of bytes and the error value it delivers (quantifying over all
    chunks and errors covers every source behaviour);
  * `panic` in `Position` as `Option.none`;
  * the lock/unlock/source-call structure of `Read` as an explicit event
    trace, to settle the lock-discipline claim.
-/

namespace Lines

/-- A byte of the stream.  The scan loop only compares bytes against the
newline marker, so natural numbers model them adequately. -/
abbrev Byte := Nat

/-- The line-break marker byte, '\n'. -/
def newline : Byte := 10

/-- Model of `bytes.IndexByte`: index of the first occurrence of `b` in `l`,
`none` when `b` does not occur (Go returns -1). -/
def indexByte : List Byte → Byte → Option Nat
  | [], _ => none
  | x :: xs, b => if x = b then some 0 else (indexByte xs b).map (· + 1)

/-- The scan loop inside `Reader.Read` (lines.go lines 38-45): repeatedly find
the next newline in the not-yet-scanned part of the chunk and append
`o + j + 1`, where `o` is the absolute stream offset of the start of the
remaining part and `j` the index of the newline inside it.  This matches Go's
`i += j + 1; r.lines = append(r.lines, r.offs+int64(i))`. -/
def scanLines (o : Int) (c : List Byte) : List Int :=
  match h : indexByte c newline with
  | none => []
  | some j => (o + (j : Int) + 1) :: scanLines (o + (j : Int) + 1) (c.drop (j + 1))
termination_by c.length
decreasing_by
  have hbound : ∀ (l : List Byte) (b : Byte) (k : Nat), indexByte l b = some k → k < l.length := by
    intro l
    induction l with
    | nil =>
      intro b k hk
      simp [indexByte] at hk
    | cons x xs ih =>
      intro b k hk
      simp only [indexByte, List.length_cons] at hk ⊢
      rcases Decidable.em (x = b) with hx | hx
      · rw [if_pos hx] at hk
        have h0 : 0 = k := by injection hk
        omega
      · rw [if_neg hx] at hk
        rcases hmap : indexByte xs b with _ | m
        · rw [hmap] at hk
          simp [Option.map] at hk
        · rw [hmap] at hk
          simp only [Option.map] at hk
          have h1 : m + 1 = k := by injection hk
          have := ih b m hmap
          omega
  have hj := hbound c newline j h
  simp only [List.length_drop]
  omega

/-- Byte-at-a-time restatement of the scan loop, convenient for induction:
whenever the front byte (at absolute offset `o`) is the newline marker, record
`o + 1`. -/
def scanB (o : Int) : List Byte → List Int
  | [] => []
  | x :: xs => if x = newline then (o + 1) :: scanB (o + 1) xs else scanB (o + 1) xs

/-- The wrapper state (struct `Reader`, lines.go lines 19-24).  The
`sync.RWMutex` field has no pure-state content; the wrapped `io.Reader` is
modelled by an opaque handle `r : Nat` (the chunk and error each call to it
yields are quantified over at each `read`).  `offs` is the `offs int64`
field, `lines` the `lines []int64` slice. -/
structure Reader where
  r : Nat
  offs : Int
  lines : List Int
deriving DecidableEq, Repr

/-- `NewReader` (lines.go lines 27-29): wrap a source with zeroed state. -/
def NewReader (src : Nat) : Reader :=
  { r := src, offs := 0, lines := [] }

/-- One call to `Reader.Read` (lines.go lines 33-48).  The wrapped source
delivered the bytes `chunk` into the caller's buffer, together with the error
value `err`; the wrapper records the newlines among exactly those bytes,
advances `offs` by their number, and passes the buffer bytes, the count and
the error through unchanged.  Result: (new state, bytes seen by the caller,
returned n, returned err). -/
def Reader.read (rd : Reader) (chunk : List Byte) (err : Option String) :
    Reader × List Byte × Nat × Option String :=
  ({ r := rd.r, offs := rd.offs + chunk.length,
     lines := rd.lines ++ scanLines rd.offs chunk },
   chunk, chunk.length, err)

/-- State after a `Read` call, the passed-through outputs discarded. -/
def Reader.readState (rd : Reader) (chunk : List Byte) : Reader :=
  (rd.read chunk none).1

/-- `Reader.Size` (lines.go lines 52-57): bytes read so far. -/
def Reader.Size (rd : Reader) : Int :=
  rd.offs

/-- The loop of Go's `sort.Search` on the interval `[i, j)`:
`h := (i+j)/2; if !f(h) { i = h+1 } else { j = h }` until `i == j`. -/
def sortSearchAux (f : Nat → Bool) (i j : Nat) : Nat :=
  if h : i < j then
    if f ((i + j) / 2) then sortSearchAux f i ((i + j) / 2)
    else sortSearchAux f ((i + j) / 2 + 1) j
  else i
termination_by j - i
decreasing_by
  · omega
  · omega

/-- Go's `sort.Search(n, f)`: binary search for the smallest index in `[0, n)`
at which `f` is true, returning `n` when there is none. -/
def sortSearch (n : Nat) (f : Nat → Bool) : Nat :=
  sortSearchAux f 0 n

/-- `Reader.Position` (lines.go lines 65-79).  The Go code panics on a
negative offset; the panic is modelled as `none`.  `sort.Search` probes
`r.lines[i]` only at indices `i < len(r.lines)`, so the out-of-range default
of `getD` is never consulted. -/
def Reader.Position (rd : Reader) (offs : Int) : Option (Int × Int) :=
  if offs < 0 then none
  else
    let i := sortSearch rd.lines.length (fun k => decide (offs < rd.lines.getD k 0))
    if i = 0 then some (1, offs + 1)
    else some ((i : Int) + 1, offs - rd.lines.getD (i - 1) 0 + 1)

/-- `Reader.Reset` (lines.go lines 94-101): rebind the source handle, zero
the consumed-byte count, truncate the recorded offsets (`r.lines[:0]`). -/
def Reader.Reset (rd : Reader) (nr : Nat) : Reader :=
  { r := nr, offs := 0, lines := rd.lines.take 0 }

/-- A mutating operation on the wrapper: one `Read` call (with the chunk and
error the current source delivers) or one `Reset` call. -/
inductive Op where
  | read (chunk : List Byte) (err : Option String)
  | reset (nr : Nat)

/-- Apply one operation to the wrapper state. -/
def Reader.applyOp (rd : Reader) : Op → Reader
  | .read chunk err => (rd.read chunk err).1
  | .reset nr => rd.Reset nr

/-- Wrapper state after a sequence of `Read`/`Reset` calls on a fresh
wrapper: the reachable states. -/
def runOps (src : Nat) (ops : List Op) : Reader :=
  ops.foldl Reader.applyOp (NewReader src)

/-- State after a sequence of `Read` calls delivering the given chunks. -/
def Reader.readAll (rd : Reader) (chunks : List (List Byte)) : Reader :=
  chunks.foldl Reader.readState rd

/-- Modelled from the spec (4.3): the index of the first entry of the list
strictly greater than `o`, or the length of the list when no entry is
greater.  This follows the spec's words and is compared against what the
code's binary search computes. -/
def specFirstGt (o : Int) : List Int → Nat
  | [] => 0
  | x :: xs => if o < x then 0 else specFirstGt o xs + 1

/-- Events in the body of a wrapper operation, in program order. -/
inductive Event where
  | lockExclusive
  | unlockExclusive
  | callSourceRead
  | scanChunk
deriving DecidableEq

/-- The body of `Reader.Read` in source order (lines.go lines 33-48):
`r.mu.Lock()` on entry, then the call `r.r.Read(p)` into the wrapped source,
then the newline scan, and the deferred `r.mu.Unlock()` on return. -/
def readBodyTrace : List Event :=
  [.lockExclusive, .callSourceRead, .scanChunk, .unlockExclusive]

/-- Whether a `callSourceRead` event of the trace occurs while the exclusive
lock is held, starting from lock state `held`. -/
def sourceCallLocked (held : Bool) : List Event → Bool
  | [] => false
  | e :: rest =>
    match e with
    | .lockExclusive => sourceCallLocked true rest
    | .unlockExclusive => sourceCallLocked false rest
    | .callSourceRead => held || sourceCallLocked held rest
    | .scanChunk => sourceCallLocked held rest

/-- Linear-scan restatement of `Position` on the recorded-offset list:
count the entries `≤ offs`.  Being structurally recursive, it evaluates by
`decide` on concrete inputs, unlike the binary search. -/
def posSpec (l : List Int) (offs : Int) : Option (Int × Int) :=
  if offs < 0 then none
  else
    let c := l.countP (fun x => decide (x ≤ offs))
    if c = 0 then some (1, offs + 1)
    else some ((c : Int) + 1, offs - l.getD (c - 1) 0 + 1)

/-- The 0-based indices inside a chunk at which the newline marker sits, in
the order encountered. -/
def markerIndices (c : List Byte) : List Nat :=
  (List.range c.length).filter (fun k => decide (c.getD k 0 = newline))

/-- The index invariant maintained by every operation: the consumed count is
non-negative and the recorded offsets are strictly increasing, positive, and
at most the consumed count. -/
def Inv (rd : Reader) : Prop :=
  0 ≤ rd.offs ∧ rd.lines.Pairwise (· < ·) ∧ ∀ x ∈ rd.lines, 0 < x ∧ x ≤ rd.offs

/-- The bytes of the test input "foo\nbar\nbaz" (lines_test.go). -/
def fooBarBaz : List Byte :=
  [102, 111, 111, 10, 98, 97, 114, 10, 98, 97, 122]

/-- The bytes of the test input "foo\nbar\nbaz\n" (lines_test.go). -/
def fooBarBazNl : List Byte :=
  [102, 111, 111, 10, 98, 97, 114, 10, 98, 97, 122, 10]

/-!
Basic facts about `indexByte` and the equivalence of the `IndexByte`-driven
scan loop with the byte-at-a-time scan.
-/

theorem indexByte_some_lt {l : List Byte} {b : Byte} {j : Nat}
    (h : indexByte l b = some j) : j < l.length := by
  induction l generalizing j with
  | nil => simp [indexByte] at h
  | cons x xs ih =>
    simp only [indexByte, List.length_cons] at h ⊢
    rcases Decidable.em (x = b) with hx | hx
    · rw [if_pos hx] at h
      have hj : 0 = j := by injection h
      omega
    · rw [if_neg hx] at h
      rcases hmap : indexByte xs b with _ | k
      · rw [hmap] at h
        simp [Option.map] at h
      · rw [hmap] at h
        simp only [Option.map] at h
        have hj : k + 1 = j := by injection h
        have := ih hmap
        omega

theorem scanLines_nil (o : Int) : scanLines o [] = [] := by
  rw [scanLines]
  split
  · rfl
  · rename_i j h
    simp [indexByte] at h

theorem scanLines_cons_newline (o : Int) (xs : List Byte) :
    scanLines o (newline :: xs) = (o + 1) :: scanLines (o + 1) xs := by
  rw [scanLines]
  split
  · rename_i h
    simp [indexByte] at h
  · rename_i j h
    have hj : j = 0 := by
      simp [indexByte] at h
      omega
    subst hj
    simp

theorem scanLines_cons_other (o : Int) (x : Byte) (xs : List Byte) (hx : x ≠ newline) :
    scanLines o (x :: xs) = scanLines (o + 1) xs := by
  rw [scanLines]
  conv_rhs => rw [scanLines]
  split <;> split
  · rfl
  · rename_i h1 j h2
    simp [indexByte, if_neg hx, h2] at h1
  · rename_i j h1 h2
    simp [indexByte, if_neg hx, h2] at h1
  · rename_i j h1 k h2
    have hj : j = k + 1 := by
      simp [indexByte, if_neg hx, h2] at h1
      omega
    subst hj
    have harith : o + ((k + 1 : Nat) : Int) + 1 = o + 1 + (k : Int) + 1 := by
      push_cast; ring
    simp only [List.drop_succ_cons, harith]

/-- The `IndexByte`-driven loop and the byte-at-a-time scan agree. -/
theorem scanLines_eq_scanB (c : List Byte) : ∀ o : Int, scanLines o c = scanB o c := by
  induction c with
  | nil => intro o; rw [scanLines_nil]; rfl
  | cons x xs ih =>
    intro o
    rcases Decidable.em (x = newline) with hx | hx
    · subst hx
      rw [scanLines_cons_newline, ih]
      simp [scanB]
    · rw [scanLines_cons_other o x xs hx, ih]
      simp [scanB, hx]

/-!
Correctness of the binary search: on a predicate that is monotone below `j`,
`sortSearchAux` returns the least index at which the predicate holds.
-/

theorem sortSearchAux_spec (f : Nat → Bool) :
    ∀ i j : Nat, i ≤ j → (∀ a b, a ≤ b → b < j → f a = true → f b = true) →
      i ≤ sortSearchAux f i j ∧ sortSearchAux f i j ≤ j ∧
        (∀ k, i ≤ k → k < sortSearchAux f i j → f k = false) ∧
        (sortSearchAux f i j < j → f (sortSearchAux f i j) = true) := by
  intro i j
  induction i, j using sortSearchAux.induct f with
  | case1 i j hlt hfm ih =>
    intro hij hmono
    have hm1 : i ≤ (i + j) / 2 := by omega
    have hm2 : (i + j) / 2 < j := by omega
    have hrw : sortSearchAux f i j = sortSearchAux f i ((i + j) / 2) := by
      rw [sortSearchAux]
      simp [hlt, hfm]
    obtain ⟨s1, s2, s3, s4⟩ := ih hm1 (fun a b hab hb hfa => hmono a b hab (by omega) hfa)
    rw [hrw]
    refine ⟨s1, by omega, s3, ?_⟩
    intro _
    rcases Nat.lt_or_ge (sortSearchAux f i ((i + j) / 2)) ((i + j) / 2) with hc | hc
    · exact s4 hc
    · have : sortSearchAux f i ((i + j) / 2) = (i + j) / 2 := by omega
      rw [this]
      exact hfm
  | case2 i j hlt hfm ih =>
    intro hij hmono
    have hm2 : (i + j) / 2 < j := by omega
    have hrw : sortSearchAux f i j = sortSearchAux f ((i + j) / 2 + 1) j := by
      rw [sortSearchAux]
      simp [hlt, hfm]
    obtain ⟨s1, s2, s3, s4⟩ := ih (by omega) hmono
    rw [hrw]
    refine ⟨by omega, s2, ?_, s4⟩
    intro k hik hk
    rcases Nat.lt_or_ge ((i + j) / 2) k with hc | hc
    · exact s3 k (by omega) hk
    · cases hb : f k with
      | false => rfl
      | true => exact absurd (hmono k ((i + j) / 2) hc hm2 hb) hfm
  | case3 i j hnlt =>
    intro hij hmono
    have hrw : sortSearchAux f i j = i := by
      rw [sortSearchAux]
      simp [hnlt]
    rw [hrw]
    exact ⟨le_rfl, hij, fun k h1 h2 => absurd (lt_of_le_of_lt h1 h2) (lt_irrefl i),
      fun h => absurd h hnlt⟩

/-- Count of list elements satisfying `p` obtained from an index bound `r`
below which every element satisfies `p` and at or above which none does. -/
theorem countP_eq_of_split {l : List Int} {p : Int → Bool} :
    ∀ {r : Nat}, r ≤ l.length →
      (∀ k, (hk : k < l.length) → k < r → p (l.get ⟨k, hk⟩) = true) →
      (∀ k, (hk : k < l.length) → r ≤ k → p (l.get ⟨k, hk⟩) = false) →
      l.countP p = r := by
  induction l with
  | nil =>
    intro r hr _ _
    simp only [List.length_nil, Nat.le_zero] at hr
    simp [hr]
  | cons a t ih =>
    intro r hr h1 h2
    rcases r with _ | r
    · have hz : ∀ x ∈ a :: t, ¬ p x = true := by
        intro x hx
        obtain ⟨k, hk⟩ := List.mem_iff_get.mp hx
        rw [← hk, h2 k.1 k.2 (Nat.zero_le _)]
        simp
      simp [List.countP_eq_zero.mpr hz]
    · have hpa : p a = true := h1 0 (by simp) (by omega)
      have ht : t.countP p = r := by
        refine ih (by simpa using hr) ?_ ?_
        · intro k hk hkr
          exact h1 (k + 1) (by simpa using hk) (by omega)
        · intro k hk hkr
          exact h2 (k + 1) (by simpa using hk) (by omega)
      rw [List.countP_cons, ht, hpa]
      simp

/-- On the strictly sorted list of recorded offsets, the code's
`sort.Search` call computes the number of entries `≤ o`. -/
theorem sortSearch_eq_countP {l : List Int} (hs : l.Pairwise (· < ·)) (o : Int) :
    sortSearch l.length (fun k => decide (o < l.getD k 0)) =
      l.countP (fun x => decide (x ≤ o)) := by
  have hget : ∀ (a b : Nat) (ha : a < l.length) (hb : b < l.length), a ≤ b → l[a] ≤ l[b] := by
    intro a b ha hb hab
    rcases eq_or_lt_of_le hab with heq | hlt
    · subst heq
      exact le_rfl
    · have := List.pairwise_iff_get.mp hs ⟨a, ha⟩ ⟨b, hb⟩ (Fin.mk_lt_mk.mpr hlt)
      simpa using this.le
  have hmono : ∀ a b, a ≤ b → b < l.length →
      (fun k => decide (o < l.getD k 0)) a = true →
      (fun k => decide (o < l.getD k 0)) b = true := by
    intro a b hab hb hfa
    have ha : a < l.length := lt_of_le_of_lt hab hb
    simp only [List.getD_eq_getElem l 0 ha, decide_eq_true_eq] at hfa
    simp only [List.getD_eq_getElem l 0 hb, decide_eq_true_eq]
    exact lt_of_lt_of_le hfa (hget a b ha hb hab)
  obtain ⟨s1, s2, s3, s4⟩ :=
    sortSearchAux_spec (fun k => decide (o < l.getD k 0)) 0 l.length (Nat.zero_le _) hmono
  unfold sortSearch
  symm
  refine countP_eq_of_split s2 ?_ ?_
  · intro k hk hkr
    have h3 := s3 k (Nat.zero_le _) hkr
    rw [List.getD_eq_getElem l 0 hk] at h3
    simp only [decide_eq_false_iff_not, not_lt] at h3
    simp only [List.get_eq_getElem, decide_eq_true_eq]
    exact h3
  · intro k hk hkr
    have hr : sortSearchAux (fun k => decide (o < l.getD k 0)) 0 l.length < l.length :=
      lt_of_le_of_lt hkr hk
    have h4 := s4 hr
    rw [List.getD_eq_getElem l 0 hr] at h4
    simp only [decide_eq_true_eq] at h4
    have hle := hget _ k hr hk hkr
    simp only [List.get_eq_getElem, decide_eq_false_iff_not, not_le]
    exact lt_of_lt_of_le h4 hle

/-- On a strictly sorted offset list, the code's `Position` agrees with the
linear-scan restatement. -/
theorem Position_eq_posSpec (rd : Reader) (offs : Int)
    (hs : rd.lines.Pairwise (· < ·)) :
    rd.Position offs = posSpec rd.lines offs := by
  unfold Reader.Position posSpec
  rcases Decidable.em (offs < 0) with hneg | hneg
  · simp [hneg]
  · simp only [if_neg hneg]
    rw [sortSearch_eq_countP hs offs]

/-!
Facts about the byte-at-a-time scan.
-/

theorem scanB_mem {x : Int} : ∀ {o : Int} {c : List Byte}, x ∈ scanB o c →
    o < x ∧ x ≤ o + c.length := by
  intro o c
  induction c generalizing o with
  | nil => intro hx; simp [scanB] at hx
  | cons b bs ih =>
    intro hx
    simp only [scanB] at hx
    rcases Decidable.em (b = newline) with hb | hb
    · rw [if_pos hb] at hx
      rcases List.mem_cons.mp hx with rfl | hx
      · constructor
        · omega
        · simp only [List.length_cons]
          push_cast
          omega
      · have := ih hx
        simp only [List.length_cons]
        push_cast at this ⊢
        omega
    · rw [if_neg hb] at hx
      have := ih hx
      simp only [List.length_cons]
      push_cast at this ⊢
      omega

theorem scanB_pairwise : ∀ (o : Int) (c : List Byte), (scanB o c).Pairwise (· < ·) := by
  intro o c
  induction c generalizing o with
  | nil => simp [scanB]
  | cons b bs ih =>
    simp only [scanB]
    rcases Decidable.em (b = newline) with hb | hb
    · rw [if_pos hb]
      refine List.pairwise_cons.mpr ⟨?_, ih (o + 1)⟩
      intro y hy
      exact (scanB_mem hy).1
    · rw [if_neg hb]
      exact ih (o + 1)

theorem scanB_append : ∀ (a b : List Byte) (o : Int),
    scanB o (a ++ b) = scanB o a ++ scanB (o + a.length) b := by
  intro a
  induction a with
  | nil => intro b o; simp [scanB]
  | cons x xs ih =>
    intro b o
    simp only [List.cons_append, scanB, List.length_cons, List.append_eq]
    have harith : o + ((xs.length + 1 : Nat) : Int) = o + 1 + xs.length := by
      push_cast
      ring
    rcases Decidable.em (x = newline) with hx | hx
    · rw [if_pos hx, if_pos hx, ih b (o + 1), harith]
      simp
    · rw [if_neg hx, if_neg hx, ih b (o + 1), harith]

/-- Counting recorded offsets `≤ t` counts the newline bytes in the first
`t - o` bytes of the scanned chunk. -/
theorem scanB_countP : ∀ (c : List Byte) (o t : Int),
    (scanB o c).countP (fun x => decide (x ≤ t)) =
      (c.take (t - o).toNat).countP (fun b => decide (b = newline)) := by
  intro c
  induction c with
  | nil => intro o t; simp [scanB]
  | cons b bs ih =>
    intro o t
    rcases hk : (t - o).toNat with _ | k
    · have ht : ¬ (o + 1 ≤ t) := by omega
      have hz : ∀ x ∈ scanB o (b :: bs), ¬ (decide (x ≤ t)) = true := by
        intro x hx
        have := (scanB_mem hx).1
        simp only [decide_eq_true_eq]
        omega
      rw [List.countP_eq_zero.mpr hz]
      simp
    · have hk1 : (t - (o + 1)).toNat = k := by omega
      have hsplit := ih (o + 1) t
      rw [hk1] at hsplit
      simp only [scanB, List.take_succ_cons]
      rcases Decidable.em (b = newline) with hb | hb
      · rw [if_pos hb, List.countP_cons, List.countP_cons, hsplit]
        have h1 : (decide (o + 1 ≤ t)) = true := by
          simp only [decide_eq_true_eq]
          omega
        have h2 : (decide (b = newline)) = true := by simp [hb]
        rw [h1, h2]
      · rw [if_neg hb, List.countP_cons, hsplit]
        have h2 : (decide (b = newline)) = false := by simp [hb]
        rw [h2]
        simp

theorem markerIndices_cons (b : Byte) (bs : List Byte) :
    markerIndices (b :: bs) =
      (if b = newline then [0] else []) ++ (markerIndices bs).map Nat.succ := by
  unfold markerIndices
  rw [List.length_cons, List.range_succ_eq_map, List.filter_cons, List.filter_map]
  have hcomp : ((fun k => decide ((b :: bs).getD k 0 = newline)) ∘ Nat.succ) =
      fun k => decide (bs.getD k 0 = newline) := by
    funext k
    rfl
  rw [hcomp]
  rcases Decidable.em (b = newline) with hb | hb
  · simp [hb]
  · simp [hb]

/-- The scan records, in order, one offset `o + k + 1` for every index `k`
of a newline byte in the chunk. -/
theorem scanB_eq_markers : ∀ (c : List Byte) (o : Int),
    scanB o c = (markerIndices c).map (fun k : Nat => o + (k : Int) + 1) := by
  intro c
  induction c with
  | nil => intro o; simp [scanB, markerIndices]
  | cons b bs ih =>
    intro o
    rw [markerIndices_cons, List.map_append]
    simp only [scanB]
    rcases Decidable.em (b = newline) with hb | hb
    · rw [if_pos hb, if_pos hb, ih (o + 1)]
      simp only [List.map_cons, List.map_nil, List.map_map, List.cons_append, List.nil_append]
      congr 1
      · norm_num
      · apply List.map_congr_left
        intro k _
        simp only [Function.comp_apply, Nat.succ_eq_add_one]
        push_cast
        ring
    · rw [if_neg hb, if_neg hb, ih (o + 1)]
      simp only [List.map_nil, List.nil_append, List.map_map]
      apply List.map_congr_left
      intro k _
      simp only [Function.comp_apply, Nat.succ_eq_add_one]
      push_cast
      ring

/-!
Characterisation of the wrapper state after sequences of operations.
-/

theorem readState_def (rd : Reader) (c : List Byte) :
    rd.readState c =
      { r := rd.r, offs := rd.offs + c.length, lines := rd.lines ++ scanB rd.offs c } := by
  unfold Reader.readState Reader.read
  rw [scanLines_eq_scanB]

/-- Reading any sequence of chunks is reading their concatenation: the state
depends only on the bytes delivered, not on the chunk boundaries. -/
theorem readAll_def : ∀ (chunks : List (List Byte)) (rd : Reader),
    rd.readAll chunks =
      { r := rd.r, offs := rd.offs + chunks.flatten.length,
        lines := rd.lines ++ scanB rd.offs chunks.flatten } := by
  intro chunks
  induction chunks with
  | nil =>
    intro rd
    simp [Reader.readAll, scanB]
  | cons c cs ih =>
    intro rd
    have hstep : rd.readAll (c :: cs) = (rd.readState c).readAll cs := by
      simp [Reader.readAll]
    rw [hstep, ih, readState_def]
    simp only [List.flatten_cons, scanB_append, List.length_append, List.append_assoc]
    congr 1
    push_cast
    ring

theorem inv_newReader (src : Nat) : Inv (NewReader src) := by
  refine ⟨le_rfl, List.Pairwise.nil, ?_⟩
  intro x hx
  simp [NewReader] at hx

theorem inv_reset (rd : Reader) (nr : Nat) : Inv (rd.Reset nr) := by
  refine ⟨le_rfl, ?_, ?_⟩
  · simp [Reader.Reset]
  · intro x hx
    simp [Reader.Reset] at hx

theorem inv_readState {rd : Reader} (h : Inv rd) (c : List Byte) : Inv (rd.readState c) := by
  obtain ⟨h0, hp, hb⟩ := h
  rw [readState_def]
  unfold Inv
  dsimp only
  refine ⟨by positivity, ?_, ?_⟩
  · rw [List.pairwise_append]
    refine ⟨hp, scanB_pairwise rd.offs c, ?_⟩
    intro a ha x hx
    have := (scanB_mem hx).1
    have := (hb a ha).2
    omega
  · intro x hx
    rcases List.mem_append.mp hx with hx | hx
    · have := hb x hx
      constructor
      · omega
      · have : (0 : Int) ≤ c.length := by positivity
        omega
    · have := scanB_mem hx
      omega

theorem inv_applyOp {rd : Reader} (h : Inv rd) (op : Op) : Inv (rd.applyOp op) := by
  cases op with
  | read chunk err =>
    have heq : rd.applyOp (.read chunk err) = rd.readState chunk := rfl
    rw [heq]
    exact inv_readState h chunk
  | reset nr => exact inv_reset rd nr

theorem inv_foldl_applyOp : ∀ (ops : List Op) {rd : Reader}, Inv rd →
    Inv (ops.foldl Reader.applyOp rd) := by
  intro ops
  induction ops with
  | nil => intro rd h; exact h
  | cons op rest ih =>
    intro rd h
    exact ih (inv_applyOp h op)

theorem inv_runOps (src : Nat) (ops : List Op) : Inv (runOps src ops) :=
  inv_foldl_applyOp ops (inv_newReader src)

theorem inv_readAll {rd : Reader} (h : Inv rd) (chunks : List (List Byte)) :
    Inv (rd.readAll chunks) := by
  induction chunks generalizing rd with
  | nil => exact h
  | cons c cs ih =>
    have hstep : rd.readAll (c :: cs) = (rd.readState c).readAll cs := by
      simp [Reader.readAll]
    rw [hstep]
    exact ih (inv_readState h c)

/-- On a strictly sorted list, the index of the first entry strictly greater
than `o` equals the number of entries `≤ o`. -/
theorem specFirstGt_eq_countP : ∀ {l : List Int}, l.Pairwise (· < ·) → ∀ o : Int,
    specFirstGt o l = l.countP (fun x => decide (x ≤ o)) := by
  intro l
  induction l with
  | nil => intro _ o; simp [specFirstGt]
  | cons x xs ih =>
    intro hs o
    rw [List.pairwise_cons] at hs
    obtain ⟨hall, hxs⟩ := hs
    rcases Decidable.em (o < x) with hx | hx
    · have h1 : (decide (x ≤ o)) = false := by
        simp only [decide_eq_false_iff_not, not_le]
        omega
      have h2 : xs.countP (fun y => decide (y ≤ o)) = 0 := by
        refine List.countP_eq_zero.mpr ?_
        intro a ha
        have := hall a ha
        simp only [decide_eq_true_eq]
        omega
      simp only [specFirstGt, if_pos hx, List.countP_cons, h1, h2]
      simp
    · have h1 : (decide (x ≤ o)) = true := by
        simp only [decide_eq_true_eq]
        omega
      simp only [specFirstGt, if_neg hx, List.countP_cons, h1, ih hxs o]
      simp

/-- Appending entries that all exceed `o` does not change the linear-scan
position of `o`. -/
theorem posSpec_append_gt {l ext : List Int} {o : Int}
    (hext : ∀ x ∈ ext, o < x) :
    posSpec (l ++ ext) o = posSpec l o := by
  unfold posSpec
  rcases Decidable.em (o < 0) with hneg | hneg
  · simp [hneg]
  · simp only [if_neg hneg]
    have hz : ext.countP (fun x => decide (x ≤ o)) = 0 := by
      refine List.countP_eq_zero.mpr ?_
      intro a ha
      have := hext a ha
      simp only [decide_eq_true_eq]
      omega
    have hc : (l ++ ext).countP (fun x => decide (x ≤ o)) =
        l.countP (fun x => decide (x ≤ o)) := by
      rw [List.countP_append, hz]
      omega
    rw [hc]
    rcases Decidable.em (l.countP (fun x => decide (x ≤ o)) = 0) with hc0 | hc0
    · simp [hc0]
    · simp only [if_neg hc0]
      have hle : l.countP (fun x => decide (x ≤ o)) ≤ l.length := List.countP_le_length _
      have hlt : l.countP (fun x => decide (x ≤ o)) - 1 < l.length := by omega
      have hlt2 : l.countP (fun x => decide (x ≤ o)) - 1 < (l ++ ext).length := by
        simp only [List.length_append]
        omega
      rw [List.getD_eq_getElem (l ++ ext) 0 hlt2, List.getD_eq_getElem l 0 hlt,
        List.getElem_append_left hlt]

/-!
The claims.
-/

/-- C1: after any sequence of `Read` calls on a fresh wrapper and for any
offset `0 ≤ o < bytesConsumed`, the line component of `Position o` is one
plus the number of recorded offsets that are `≤ o`, and that number equals
the number of newline marker bytes among the delivered bytes `[0, o)`. -/
theorem position_line_counts_newlines (src : Nat) (chunks : List (List Byte)) (o : Int)
    (h0 : 0 ≤ o) (hlt : o < ((NewReader src).readAll chunks).offs) :
    (∃ col : Int,
        ((NewReader src).readAll chunks).Position o =
          some ((((NewReader src).readAll chunks).lines.countP
              (fun x => decide (x ≤ o)) : Int) + 1, col)) ∧
      ((NewReader src).readAll chunks).lines.countP (fun x => decide (x ≤ o)) =
        (chunks.flatten.take o.toNat).countP (fun b => decide (b = newline)) := by
  have hInv : Inv ((NewReader src).readAll chunks) :=
    inv_readAll (inv_newReader src) chunks
  constructor
  · rw [Position_eq_posSpec _ _ hInv.2.1]
    unfold posSpec
    rw [if_neg (not_lt.mpr h0)]
    dsimp only
    split
    · rename_i hc
      refine ⟨o + 1, ?_⟩
      rw [hc]
      norm_num
    · exact ⟨_, rfl⟩
  · have hlines : ((NewReader src).readAll chunks).lines = scanB 0 chunks.flatten := by
      rw [readAll_def]
      simp [NewReader]
    rw [hlines, scanB_countP chunks.flatten 0 o]
    norm_num

/-- Witness for C1: the input "a\nb" read in one chunk, offset 2. -/
theorem position_line_counts_newlines_witness :
    (∃ col : Int,
        ((NewReader 0).readAll [[97, 10, 98]]).Position 2 =
          some ((((NewReader 0).readAll [[97, 10, 98]]).lines.countP
              (fun x => decide (x ≤ (2 : Int))) : Int) + 1, col)) ∧
      ((NewReader 0).readAll [[97, 10, 98]]).lines.countP (fun x => decide (x ≤ (2 : Int))) =
        (([[97, 10, 98]] : List (List Byte)).flatten.take (2 : Int).toNat).countP
          (fun b => decide (b = newline)) :=
  position_line_counts_newlines 0 [[97, 10, 98]] 2 (by norm_num)
    (by rw [readAll_def]; decide)

/-- C2: on every reachable wrapper state and every non-negative offset `o`,
the `sort.Search` call computes the index `i` of the first recorded offset
strictly greater than `o` (the sequence length if none is greater), and
`Position` returns `(1, o+1)` when `i = 0` and `(i+1, o - lines[i-1] + 1)`
otherwise. -/
theorem position_computes_first_greater (src : Nat) (ops : List Op) (o : Int)
    (h0 : 0 ≤ o) :
    sortSearch (runOps src ops).lines.length
        (fun k => decide (o < (runOps src ops).lines.getD k 0)) =
      specFirstGt o (runOps src ops).lines ∧
    (runOps src ops).Position o =
      (if specFirstGt o (runOps src ops).lines = 0 then some (1, o + 1)
       else some ((specFirstGt o (runOps src ops).lines : Int) + 1,
         o - (runOps src ops).lines.getD (specFirstGt o (runOps src ops).lines - 1) 0 + 1)) := by
  have hInv := inv_runOps src ops
  have hs := hInv.2.1
  have h2 := specFirstGt_eq_countP hs o
  constructor
  · rw [sortSearch_eq_countP hs o, h2]
  · rw [Position_eq_posSpec _ _ hs, h2]
    unfold posSpec
    rw [if_neg (not_lt.mpr h0)]

/-- Witness for C2: one Read delivering a lone newline, offset 0. -/
theorem position_computes_first_greater_witness :
    sortSearch (runOps 0 [Op.read [10] none]).lines.length
        (fun k => decide ((0 : Int) < (runOps 0 [Op.read [10] none]).lines.getD k 0)) =
      specFirstGt 0 (runOps 0 [Op.read [10] none]).lines ∧
    (runOps 0 [Op.read [10] none]).Position 0 =
      (if specFirstGt 0 (runOps 0 [Op.read [10] none]).lines = 0 then some (1, 0 + 1)
       else some ((specFirstGt 0 (runOps 0 [Op.read [10] none]).lines : Int) + 1,
         0 - (runOps 0 [Op.read [10] none]).lines.getD
           (specFirstGt 0 (runOps 0 [Op.read [10] none]).lines - 1) 0 + 1)) :=
  position_computes_first_greater 0 [Op.read [10] none] 0 (by norm_num)

/-- C3: every `Read` call forwards the request to the wrapped source, scans
exactly the newly delivered bytes for the marker, appends
`bytesConsumedBefore + markerIndex + 1` per marker in encounter order,
advances `bytesConsumed` by the delivered count, and returns the bytes, the
count and the error of the wrapped source unmodified. -/
theorem read_appends_markers_and_passes_through (rd : Reader) (chunk : List Byte)
    (err : Option String) :
    rd.read chunk err =
      ({ r := rd.r, offs := rd.offs + chunk.length,
         lines := rd.lines ++
           (markerIndices chunk).map (fun k : Nat => rd.offs + (k : Int) + 1) },
       chunk, chunk.length, err) := by
  unfold Reader.read
  rw [scanLines_eq_scanB, scanB_eq_markers]

/-- C4: chunk-boundary independence: two chunkings of the same byte stream,
fully consumed from fresh wrappers, give identical `Position` answers at
every offset `0 ≤ o < len`. -/
theorem position_chunking_independent (src : Nat) (chunks1 chunks2 : List (List Byte))
    (o : Int) (hflat : chunks1.flatten = chunks2.flatten) (h0 : 0 ≤ o)
    (hlen : o < (chunks1.flatten.length : Int)) :
    ((NewReader src).readAll chunks1).Position o =
      ((NewReader src).readAll chunks2).Position o := by
  rw [readAll_def, readAll_def, hflat]

/-- Witness for C4: "a\nb" as one chunk versus one byte at a time, offset 1. -/
theorem position_chunking_independent_witness :
    ((NewReader 0).readAll [[97, 10, 98]]).Position 1 =
      ((NewReader 0).readAll [[97], [10], [98]]).Position 1 :=
  position_chunking_independent 0 [[97, 10, 98]] [[97], [10], [98]] 1 (by decide)
    (by norm_num) (by decide)

/-- C5: after every sequence of `Read` and `Reset` operations from the fresh
state, the recorded offsets are sorted strictly ascending and contain no
duplicate entries. -/
theorem lines_strictly_ascending_nodup (src : Nat) (ops : List Op) :
    (runOps src ops).lines.Pairwise (· < ·) ∧ (runOps src ops).lines.Nodup :=
  ⟨(inv_runOps src ops).2.1, ((inv_runOps src ops).2.1).imp ne_of_lt⟩

/-- C6: the concrete scenarios of lines_test.go: after fully consuming
"foo\nbar\nbaz", `Position` maps offset 0 to (1,1), 3 (the newline) to
(1,4), 4 to (2,1), 7 to (2,4), 8 to (3,1), and the past-the-end offset 20 to
(3,13); after fully consuming "foo\nbar\nbaz\n", offset 20 maps to (4,9). -/
theorem position_concrete_scenarios :
    (((NewReader 0).readAll [fooBarBaz]).Position 0 = some (1, 1)) ∧
    (((NewReader 0).readAll [fooBarBaz]).Position 3 = some (1, 4)) ∧
    (((NewReader 0).readAll [fooBarBaz]).Position 4 = some (2, 1)) ∧
    (((NewReader 0).readAll [fooBarBaz]).Position 7 = some (2, 4)) ∧
    (((NewReader 0).readAll [fooBarBaz]).Position 8 = some (3, 1)) ∧
    (((NewReader 0).readAll [fooBarBaz]).Position 20 = some (3, 13)) ∧
    (((NewReader 0).readAll [fooBarBazNl]).Position 20 = some (4, 9)) := by
  have h1 : (NewReader 0).readAll [fooBarBaz] = { r := 0, offs := 11, lines := [4, 8] } := by
    rw [readAll_def]
    decide
  have h2 : (NewReader 0).readAll [fooBarBazNl] =
      { r := 0, offs := 12, lines := [4, 8, 12] } := by
    rw [readAll_def]
    decide
  have hp1 := (inv_readAll (inv_newReader 0) [fooBarBaz]).2.1
  have hp2 := (inv_readAll (inv_newReader 0) [fooBarBazNl]).2.1
  rw [h1] at hp1
  rw [h2] at hp2
  refine ⟨?_, ?_, ?_, ?_, ?_, ?_, ?_⟩
  · rw [h1, Position_eq_posSpec _ _ hp1]; decide
  · rw [h1, Position_eq_posSpec _ _ hp1]; decide
  · rw [h1, Position_eq_posSpec _ _ hp1]; decide
  · rw [h1, Position_eq_posSpec _ _ hp1]; decide
  · rw [h1, Position_eq_posSpec _ _ hp1]; decide
  · rw [h1, Position_eq_posSpec _ _ hp1]; decide
  · rw [h2, Position_eq_posSpec _ _ hp2]; decide

/-- C7: a negative offset passed to `Position` is a fatal precondition
failure (the modelled panic, `none`), never a silently clamped or wrapped
answer, while every non-negative offset yields a (line, column) pair. -/
theorem position_negative_is_fatal (rd : Reader) (o : Int) :
    (o < 0 → rd.Position o = none) ∧
    (0 ≤ o → ∃ p : Int × Int, rd.Position o = some p) := by
  constructor
  · intro h
    unfold Reader.Position
    rw [if_pos h]
  · intro h
    unfold Reader.Position
    rw [if_neg (not_lt.mpr h)]
    dsimp only
    split
    · exact ⟨(1, o + 1), rfl⟩
    · exact ⟨_, rfl⟩

/-- Witness for C7: the fresh wrapper panics at offset -1 and answers at 5. -/
theorem position_negative_is_fatal_witness :
    (NewReader 0).Position (-1) = none ∧
      ∃ p : Int × Int, (NewReader 0).Position 5 = some p :=
  ⟨(position_negative_is_fatal (NewReader 0) (-1)).1 (by norm_num),
   (position_negative_is_fatal (NewReader 0) 5).2 (by norm_num)⟩

/-- C8: `Reset` rebinds the wrapped source, zeroes the consumed count and
empties the recorded offsets, so `Position 0` on the reset wrapper returns
(1, 1) no matter how many lines the previous source had recorded. -/
theorem reset_clears_state (rd : Reader) (nr : Nat) :
    (rd.Reset nr).r = nr ∧ (rd.Reset nr).offs = 0 ∧ (rd.Reset nr).lines = [] ∧
      (rd.Reset nr).Position 0 = some (1, 1) := by
  refine ⟨rfl, rfl, rfl, ?_⟩
  rw [Position_eq_posSpec]
  · show posSpec [] 0 = some (1, 1)
    decide
  · exact List.Pairwise.nil

/-- C9 counterexample: the claim that no lock is held while `Read` calls into
the wrapped source fails on the code — in `Read`'s body the exclusive lock is
acquired first, and the source call happens before the deferred unlock. -/
theorem lock_free_source_call_false :
    ¬ (sourceCallLocked false readBodyTrace = false) := by
  decide

/-- C9 amended: `Read` holds the wrapper's exclusive lock across its call
into the wrapped source (lock on entry, deferred unlock on return), so a
blocking source read can stall concurrent `Position`/`Size` queries. -/
theorem read_holds_lock_across_source_call :
    sourceCallLocked false readBodyTrace = true := by
  decide

/-- C10: query results for already-consumed offsets are stable under further
reading: additional `Read` calls append only offsets beyond the old consumed
count and leave `Position o` unchanged for every `0 ≤ o <` old
`bytesConsumed`. -/
theorem position_stable_under_further_reads (src : Nat) (ops : List Op)
    (extra : List (List Byte)) (o : Int) (h0 : 0 ≤ o)
    (hlt : o < (runOps src ops).offs) :
    ((runOps src ops).readAll extra).Position o = (runOps src ops).Position o := by
  have hInv := inv_runOps src ops
  have hInv2 := inv_readAll hInv extra
  rw [Position_eq_posSpec _ _ hInv2.2.1, Position_eq_posSpec _ _ hInv.2.1, readAll_def]
  show posSpec ((runOps src ops).lines ++ scanB (runOps src ops).offs extra.flatten) o =
    posSpec (runOps src ops).lines o
  apply posSpec_append_gt
  intro x hx
  have := (scanB_mem hx).1
  omega

/-- Witness for C10: after reading "a\nb", reading a further "\nc" does not
change the position of offset 1. -/
theorem position_stable_under_further_reads_witness :
    ((runOps 0 [Op.read [97, 10, 98] none]).readAll [[10, 99]]).Position 1 =
      (runOps 0 [Op.read [97, 10, 98] none]).Position 1 :=
  position_stable_under_further_reads 0 [Op.read [97, 10, 98] none] [[10, 99]] 1
    (by norm_num) (by decide)

end Lines
